import Mathlib

/-!
Shallow embedding of the stage-partitioning and task-update logic of the
`cc-template` repository (`src/templates/orchestrator.py` and
`src/templates/todo-management.py`), together with theorems checking the
repository's specification against this embedding.

Modelling conventions:
* Python `str` is `String`, Python lists are `List`, a Python `dict` is an
  insertion-ordered association list with Python's key semantics (updating an
  existing key keeps its position, a new key is appended at the end), and a
  Python `set` of strings is a `List String` queried only through membership.
* `datetime.now().isoformat()` is modelled by an opaque `String` parameter
  (`now`), since the partitioning and update logic never inspects it.
* The `while remaining:` loops are modelled with an explicit fuel argument
  returning `Option`; `none` means the fuel ran out.  The theorems below prove
  that fuel equal to the number of remaining items always suffices, which is
  exactly the termination argument for the Python loop (each iteration removes
  at least one item from `remaining`).
-/

namespace CCTemplate

/-- `AgentType` enum of `orchestrator.py`. -/
inductive AgentType where
  | GENERAL_PURPOSE
  | CODEBASE_LOCATOR
  | CODEBASE_ANALYZER
  | RESEARCH_SYNTHESIZER
  | WEB_RESEARCH_SPECIALIST
  | PROBLEM_SOLVER
  | CONTEXT_MANAGER
  | PARALLEL_COORDINATOR
  | RESEARCH
deriving DecidableEq, Repr

/-- `ExecutionStatus` enum of `orchestrator.py`. -/
inductive ExecutionStatus where
  | PENDING
  | RUNNING
  | COMPLETED
  | FAILED
  | SKIPPED
deriving DecidableEq, Repr

/-- The `AgentExecution` dataclass of `orchestrator.py`.  The simulated-timing
field `duration: Optional[float]` is kept as an opaque optional string (the
partitioner never reads it, and no arithmetic is performed on it here). -/
structure AgentExecution where
  id : String
  agent_type : AgentType
  description : String
  prompt : String
  status : ExecutionStatus
  start_time : Option String := none
  end_time : Option String := none
  duration : Option String := none
  result : Option String := none
  error : Option String := none
  dependencies : List String := []
deriving Repr

/-- The `Task` dataclass of `todo-management.py` (`created_at` is the opaque
construction timestamp). -/
structure Task where
  id : String
  content : String
  active_form : String
  status : String := "pending"
  dependencies : List String := []
  estimated_duration : Option Int := none
  tags : List String := []
  created_at : String := ""
deriving Repr

/-- One pass of the inner `for exec_id, execution in list(remaining.items())`
loop of `_calculate_parallel_groups` (orchestrator.py lines 113-117): scan the
snapshot of `remaining` in order; every item whose dependencies all lie in
`completed` is appended to the current stage, added to `completed` (note: the
source adds it *during* the scan, so later items of the same pass see it), and
removed from `remaining`.  Returns (current stage ids, remaining items in
order, updated completed set). -/
def scanPassO : List AgentExecution → List String →
    List String × List AgentExecution × List String
  | [], completed => ([], [], completed)
  | e :: rest, completed =>
    if e.dependencies.all (fun d => completed.contains d) then
      let r := scanPassO rest (e.id :: completed)
      (e.id :: r.1, r.2.1, r.2.2)
    else
      let r := scanPassO rest completed
      (r.1, e :: r.2.1, r.2.2)

/-- Python-dict insertion: `{exec.id: exec for exec in executions}` updates an
existing key in place (keeping its position) and appends a new key. -/
def dictInsertO (m : List AgentExecution) (e : AgentExecution) : List AgentExecution :=
  if m.any (fun x => x.id == e.id) then
    m.map (fun x => if x.id == e.id then e else x)
  else m ++ [e]

/-- `remaining_executions = {exec.id: exec for exec in executions}`
(orchestrator.py line 108), as an insertion-ordered association of items keyed
by id. -/
def pyDictO (l : List AgentExecution) : List AgentExecution :=
  l.foldl dictInsertO []

/-- The `while remaining_executions:` loop of `_calculate_parallel_groups`
(orchestrator.py lines 111-131), with explicit fuel.  When the scan pass
places at least one item it becomes the next stage; when it places none
(`remaining` and `completed` are then unchanged by the pass), the first
remaining item in insertion order is placed alone as the next stage
("Handle circular dependencies" branch, lines 122-130). -/
def calcAuxO : Nat → List AgentExecution → List String → Nat →
    Option (List (String × List String))
  | _, [], _, _ => some []
  | 0, _ :: _, _, _ => none
  | fuel + 1, first :: rest, completed, stage =>
    if (scanPassO (first :: rest) completed).1 = [] then
      (calcAuxO fuel rest (first.id :: completed) (stage + 1)).map
        (fun g => ("stage_" ++ toString stage, [first.id]) :: g)
    else
      (calcAuxO fuel (scanPassO (first :: rest) completed).2.1
          (scanPassO (first :: rest) completed).2.2 (stage + 1)).map
        (fun g => ("stage_" ++ toString stage, (scanPassO (first :: rest) completed).1) :: g)

/-- `AgentOrchestrator._calculate_parallel_groups` (orchestrator.py lines
104-132): the `parallel_groups` dict, as the insertion-ordered list of
`(stage label, ids)` pairs.  Fuel `|dict|` is sufficient
(`calcAuxO_isSome`), so the `getD []` default is never taken. -/
def calculate_parallel_groups (executions : List AgentExecution) :
    List (String × List String) :=
  (calcAuxO (pyDictO executions).length (pyDictO executions) [] 0).getD []

/-- One pass of the inner scan of `identify_parallel_opportunities`
(todo-management.py lines 112-116); same structure as `scanPassO`. -/
def scanPassT : List Task → List String → List String × List Task × List String
  | [], completed => ([], [], completed)
  | t :: rest, completed =>
    if t.dependencies.all (fun d => completed.contains d) then
      let r := scanPassT rest (t.id :: completed)
      (t.id :: r.1, r.2.1, r.2.2)
    else
      let r := scanPassT rest completed
      (r.1, t :: r.2.1, r.2.2)

/-- Python-dict insertion for `{task.id: task for task in tasks}`. -/
def dictInsertT (m : List Task) (t : Task) : List Task :=
  if m.any (fun x => x.id == t.id) then
    m.map (fun x => if x.id == t.id then t else x)
  else m ++ [t]

/-- `remaining_tasks = {task.id: task for task in tasks}`
(todo-management.py line 107). -/
def pyDictT (l : List Task) : List Task :=
  l.foldl dictInsertT []

/-- The `while remaining_tasks:` loop of `identify_parallel_opportunities`
(todo-management.py lines 110-130), with explicit fuel; same structure as
`calcAuxO` including the "Break circular dependencies" branch. -/
def calcAuxT : Nat → List Task → List String → Nat →
    Option (List (String × List String))
  | _, [], _, _ => some []
  | 0, _ :: _, _, _ => none
  | fuel + 1, first :: rest, completed, stage =>
    if (scanPassT (first :: rest) completed).1 = [] then
      (calcAuxT fuel rest (first.id :: completed) (stage + 1)).map
        (fun g => ("stage_" ++ toString stage, [first.id]) :: g)
    else
      (calcAuxT fuel (scanPassT (first :: rest) completed).2.1
          (scanPassT (first :: rest) completed).2.2 (stage + 1)).map
        (fun g => ("stage_" ++ toString stage, (scanPassT (first :: rest) completed).1) :: g)

/-- `TodoManager.identify_parallel_opportunities` (todo-management.py lines
101-131). -/
def identify_parallel_opportunities (tasks : List Task) :
    List (String × List String) :=
  (calcAuxT (pyDictT tasks).length (pyDictT tasks) [] 0).getD []

/-- An `AgentExecution` as built by `create_execution_plan` from a bare
`{id, dependencies}` input (the other fields are irrelevant to the
partitioner). -/
def mkExec (i : String) (deps : List String) : AgentExecution :=
  { id := i, agent_type := .GENERAL_PURPOSE, description := "", prompt := "",
    status := .PENDING, dependencies := deps }

/-- A `Task` with the given id and dependencies. -/
def mkTask (i : String) (deps : List String) : Task :=
  { id := i, content := "", active_form := "", dependencies := deps }

/-- A scan pass never changes the total number of items: placed + remaining
equals the input count. -/
theorem scanPassO_length (l : List AgentExecution) (c : List String) :
    (scanPassO l c).1.length + (scanPassO l c).2.1.length = l.length := by
  induction l generalizing c with
  | nil => simp [scanPassO]
  | cons e rest ih =>
    by_cases h : e.dependencies.all (fun d => c.contains d) = true
    · have := ih (e.id :: c)
      simp only [scanPassO, h, if_true, List.length_cons]
      omega
    · have := ih c
      simp only [scanPassO, h, if_false, Bool.false_eq_true, List.length_cons]
      omega

/-- The ids placed by a scan pass together with the ids still remaining are a
permutation of the ids scanned. -/
theorem scanPassO_perm (l : List AgentExecution) (c : List String) :
    ((scanPassO l c).1 ++ (scanPassO l c).2.1.map (fun e => e.id)).Perm
      (l.map (fun e => e.id)) := by
  induction l generalizing c with
  | nil => simp [scanPassO]
  | cons e rest ih =>
    simp only [scanPassO]
    by_cases h : (e.dependencies.all fun d => c.contains d) = true
    · rw [if_pos h]
      simpa using (ih (e.id :: c)).cons e.id
    · rw [if_neg h]
      have h2 : ((scanPassO rest c).1 ++
          e.id :: (scanPassO rest c).2.1.map (fun e => e.id)).Perm
          (e.id :: ((scanPassO rest c).1 ++ (scanPassO rest c).2.1.map (fun e => e.id))) :=
        List.perm_middle
      simpa using h2.trans ((ih c).cons e.id)

/-- A scan pass that places nothing leaves `remaining` and `completed`
untouched (orchestrator.py deletes from the dict and adds to the set only when
it places an item). -/
theorem scanPassO_empty_stage (l : List AgentExecution) (c : List String)
    (h : (scanPassO l c).1 = []) :
    (scanPassO l c).2.1 = l ∧ (scanPassO l c).2.2 = c := by
  induction l generalizing c with
  | nil => simp [scanPassO]
  | cons e rest ih =>
    simp only [scanPassO] at h ⊢
    by_cases hd : (e.dependencies.all fun d => c.contains d) = true
    · rw [if_pos hd] at h
      exact absurd h (by simp)
    · rw [if_neg hd] at h ⊢
      simp only at h
      obtain ⟨h1, h2⟩ := ih c h
      exact ⟨by simp [h1], h2⟩

/-- Termination of the `while` loop: fuel equal to the number of remaining
items always suffices, because every iteration removes at least one item. -/
theorem calcAuxO_isSome (fuel : Nat) :
    ∀ (l : List AgentExecution) (c : List String) (s : Nat),
      l.length ≤ fuel → (calcAuxO fuel l c s).isSome = true := by
  induction fuel with
  | zero =>
    intro l c s h
    have : l = [] := List.length_eq_zero.mp (Nat.le_zero.mp h)
    subst this
    simp [calcAuxO]
  | succ fuel ih =>
    intro l c s h
    match l with
    | [] => simp [calcAuxO]
    | first :: rest =>
      simp only [calcAuxO]
      by_cases hc : (scanPassO (first :: rest) c).1 = []
      · rw [if_pos hc]
        have h3 := ih rest (first.id :: c) (s + 1)
          (by simpa using Nat.le_of_succ_le_succ h)
        obtain ⟨g, hg⟩ := Option.isSome_iff_exists.mp h3
        simp [hg]
      · rw [if_neg hc]
        have hlen := scanPassO_length (first :: rest) c
        have h1 : 1 ≤ (scanPassO (first :: rest) c).1.length := by
          cases hq : (scanPassO (first :: rest) c).1 with
          | nil => exact absurd hq hc
          | cons x xs => simp
        have h3 := ih (scanPassO (first :: rest) c).2.1
          (scanPassO (first :: rest) c).2.2 (s + 1)
          (by simp only [List.length_cons] at hlen h; omega)
        obtain ⟨g, hg⟩ := Option.isSome_iff_exists.mp h3
        simp [hg]

/-- The concatenation of all stage contents produced by the loop is a
permutation of the ids of the remaining items. -/
theorem calcAuxO_perm (fuel : Nat) :
    ∀ (l : List AgentExecution) (c : List String) (s : Nat)
      (g : List (String × List String)),
      l.length ≤ fuel → calcAuxO fuel l c s = some g →
      ((g.map Prod.snd).flatten).Perm (l.map (fun e => e.id)) := by
  induction fuel with
  | zero =>
    intro l c s g h hg
    have hl : l = [] := List.length_eq_zero.mp (Nat.le_zero.mp h)
    subst hl
    simp only [calcAuxO, Option.some.injEq] at hg
    subst hg
    simp
  | succ fuel ih =>
    intro l c s g h hg
    match l with
    | [] =>
      simp only [calcAuxO, Option.some.injEq] at hg
      subst hg
      simp
    | first :: rest =>
      simp only [calcAuxO] at hg
      by_cases hc : (scanPassO (first :: rest) c).1 = []
      · rw [if_pos hc, Option.map_eq_some'] at hg
        obtain ⟨g2, hg2, rfl⟩ := hg
        have hp := ih rest (first.id :: c) (s + 1) g2
          (by simpa using Nat.le_of_succ_le_succ h) hg2
        simpa using hp.cons first.id
      · rw [if_neg hc, Option.map_eq_some'] at hg
        obtain ⟨g2, hg2, rfl⟩ := hg
        have hlen := scanPassO_length (first :: rest) c
        have h1 : 1 ≤ (scanPassO (first :: rest) c).1.length := by
          cases hq : (scanPassO (first :: rest) c).1 with
          | nil => exact absurd hq hc
          | cons x xs => simp
        have hp := ih (scanPassO (first :: rest) c).2.1
          (scanPassO (first :: rest) c).2.2 (s + 1) g2
          (by simp only [List.length_cons] at hlen h; omega) hg2
        simpa using (hp.append_left (scanPassO (first :: rest) c).1).trans
          (scanPassO_perm (first :: rest) c)

/-- The loop produces at most as many stages as there are remaining items. -/
theorem calcAuxO_length_le (fuel : Nat) :
    ∀ (l : List AgentExecution) (c : List String) (s : Nat)
      (g : List (String × List String)),
      l.length ≤ fuel → calcAuxO fuel l c s = some g → g.length ≤ l.length := by
  induction fuel with
  | zero =>
    intro l c s g h hg
    have hl : l = [] := List.length_eq_zero.mp (Nat.le_zero.mp h)
    subst hl
    simp only [calcAuxO, Option.some.injEq] at hg
    subst hg
    simp
  | succ fuel ih =>
    intro l c s g h hg
    match l with
    | [] =>
      simp only [calcAuxO, Option.some.injEq] at hg
      subst hg
      simp
    | first :: rest =>
      simp only [calcAuxO] at hg
      by_cases hc : (scanPassO (first :: rest) c).1 = []
      · rw [if_pos hc, Option.map_eq_some'] at hg
        obtain ⟨g2, hg2, rfl⟩ := hg
        have hq := ih rest (first.id :: c) (s + 1) g2
          (by simpa using Nat.le_of_succ_le_succ h) hg2
        simp only [List.length_cons]
        omega
      · rw [if_neg hc, Option.map_eq_some'] at hg
        obtain ⟨g2, hg2, rfl⟩ := hg
        have hlen := scanPassO_length (first :: rest) c
        have h1 : 1 ≤ (scanPassO (first :: rest) c).1.length := by
          cases hq : (scanPassO (first :: rest) c).1 with
          | nil => exact absurd hq hc
          | cons x xs => simp
        have hq := ih (scanPassO (first :: rest) c).2.1
          (scanPassO (first :: rest) c).2.2 (s + 1) g2
          (by simp only [List.length_cons] at hlen h; omega) hg2
        simp only [List.length_cons] at hlen h ⊢
        omega

/-- Building the Python dict from items with pairwise-distinct ids keeps the
item list unchanged. -/
theorem foldl_dictInsertO (l : List AgentExecution) :
    ∀ acc : List AgentExecution, ((acc ++ l).map (fun e => e.id)).Nodup →
      List.foldl dictInsertO acc l = acc ++ l := by
  induction l with
  | nil => intro acc _; simp
  | cons e rest ih =>
    intro acc h
    have hmem : e.id ∉ acc.map (fun e => e.id) := by
      intro hmem
      rw [List.map_append] at h
      exact (List.disjoint_of_nodup_append h) hmem (by simp)
    have hnot : (acc.any fun x => x.id == e.id) = false := by
      by_contra hcon
      rw [Bool.not_eq_false, List.any_eq_true] at hcon
      obtain ⟨x, hx, hbeq⟩ := hcon
      rw [beq_iff_eq] at hbeq
      exact hmem (hbeq ▸ List.mem_map_of_mem _ hx)
    have hstep : dictInsertO acc e = acc ++ [e] := by
      simp [dictInsertO, hnot]
    rw [List.foldl_cons, hstep, ih (acc ++ [e]) (by simpa using h)]
    simp

/-- `pyDictO` is the identity on inputs with pairwise-distinct ids. -/
theorem pyDictO_eq_self (l : List AgentExecution)
    (h : (l.map (fun e => e.id)).Nodup) : pyDictO l = l := by
  have := foldl_dictInsertO l [] (by simpa using h)
  simpa [pyDictO] using this

/-- The part of an `AgentExecution` the partitioner reads: id and dependency
list. -/
def projE (e : AgentExecution) : String × List String := (e.id, e.dependencies)

/-- The part of a `Task` the partitioner reads: id and dependency list. -/
def projT (t : Task) : String × List String := (t.id, t.dependencies)

/-- The two scan passes agree on inputs with the same ids and dependency
lists. -/
theorem scanPass_sim (es : List AgentExecution) :
    ∀ (ts : List Task) (c : List String), es.map projE = ts.map projT →
      (scanPassO es c).1 = (scanPassT ts c).1 ∧
      (scanPassO es c).2.1.map projE = (scanPassT ts c).2.1.map projT ∧
      (scanPassO es c).2.2 = (scanPassT ts c).2.2 := by
  induction es with
  | nil =>
    intro ts c h
    match ts with
    | [] => simp [scanPassO, scanPassT]
    | t :: trest => simp at h
  | cons e rest ih =>
    intro ts c h
    match ts with
    | [] => simp at h
    | t :: trest =>
      simp only [List.map_cons, List.cons.injEq] at h
      obtain ⟨hh, htail⟩ := h
      have hid : e.id = t.id := congrArg Prod.fst hh
      have hdeps : e.dependencies = t.dependencies := congrArg Prod.snd hh
      simp only [scanPassO, scanPassT, hid, hdeps]
      by_cases hcond : (t.dependencies.all fun d => c.contains d) = true
      · rw [if_pos hcond, if_pos hcond]
        obtain ⟨h1, h2, h3⟩ := ih trest (t.id :: c) htail
        exact ⟨by simp [h1], by simp [h2], h3⟩
      · rw [if_neg hcond, if_neg hcond]
        obtain ⟨h1, h2, h3⟩ := ih trest c htail
        exact ⟨h1, by simp [h2, hh, projE, projT, hid, hdeps], h3⟩

/-- Mapping a pointwise id/deps-preserving function over corresponding lists
preserves correspondence. -/
theorem map_sim_pointwise (f : AgentExecution → AgentExecution) (ft : Task → Task)
    (hf : ∀ x y, projE x = projT y → projE (f x) = projT (ft y)) :
    ∀ (m : List AgentExecution) (mt : List Task),
      m.map projE = mt.map projT → (m.map f).map projE = (mt.map ft).map projT := by
  intro m
  induction m with
  | nil =>
    intro mt h
    match mt with
    | [] => simp
    | y :: ys => simp at h
  | cons x xs ih =>
    intro mt h
    match mt with
    | [] => simp at h
    | y :: ys =>
      simp only [List.map_cons, List.cons.injEq] at h ⊢
      exact ⟨hf x y h.1, ih ys h.2⟩

/-- `any` after `map`, for maps that change the element type. -/
theorem any_map_general {α β : Type} (f : α → β) (p : β → Bool) (l : List α) :
    (l.map f).any p = l.any fun a => p (f a) := by
  induction l with
  | nil => rfl
  | cons x xs ih => simp [ih]

/-- The two Python-dict insertions agree on corresponding states. -/
theorem dictInsert_sim (m : List AgentExecution) (mt : List Task)
    (e : AgentExecution) (t : Task) (hm : m.map projE = mt.map projT)
    (he : projE e = projT t) :
    (dictInsertO m e).map projE = (dictInsertT mt t).map projT := by
  have hid : e.id = t.id := congrArg Prod.fst he
  have hids : m.map (fun x => x.id) = mt.map (fun x => x.id) := by
    have := congrArg (List.map Prod.fst) hm
    simpa [Function.comp_def, projE, projT] using this
  have hany : (m.any fun x => x.id == e.id) = (mt.any fun x => x.id == t.id) := by
    have h1 : (m.any fun x => x.id == e.id) =
        ((m.map fun x => x.id).any fun s => s == e.id) :=
      (any_map_general (fun x => x.id) (fun s => s == e.id) m).symm
    have h2 : (mt.any fun x => x.id == t.id) =
        ((mt.map fun x => x.id).any fun s => s == t.id) :=
      (any_map_general (fun x => x.id) (fun s => s == t.id) mt).symm
    rw [h1, h2, hids, hid]
  unfold dictInsertO dictInsertT
  by_cases hc : (mt.any fun x => x.id == t.id) = true
  · rw [if_pos (hany ▸ hc), if_pos hc]
    apply map_sim_pointwise _ _ _ m mt hm
    intro x y hxy
    have hxy1 : x.id = y.id := congrArg Prod.fst hxy
    by_cases hb : (x.id == e.id) = true
    · rw [if_pos hb, if_pos (by rw [← hxy1, ← hid]; exact hb)]
      exact he
    · rw [if_neg hb, if_neg (by rw [← hxy1, ← hid]; exact hb)]
      exact hxy
  · rw [if_neg (hany ▸ hc), if_neg hc]
    simp [hm, he]

/-- The two Python-dict builds agree on corresponding inputs. -/
theorem pyDict_sim (l : List AgentExecution) :
    ∀ (lt : List Task) (acc : List AgentExecution) (acct : List Task),
      l.map projE = lt.map projT → acc.map projE = acct.map projT →
      (l.foldl dictInsertO acc).map projE = (lt.foldl dictInsertT acct).map projT := by
  induction l with
  | nil =>
    intro lt acc acct h hacc
    match lt with
    | [] => simpa using hacc
    | t :: ts => simp at h
  | cons e rest ih =>
    intro lt acc acct h hacc
    match lt with
    | [] => simp at h
    | t :: ts =>
      simp only [List.map_cons, List.cons.injEq] at h
      simp only [List.foldl_cons]
      exact ih ts _ _ h.2 (dictInsert_sim acc acct e t hacc h.1)

/-- The two staging loops agree on corresponding inputs. -/
theorem calcAux_sim (fuel : Nat) :
    ∀ (es : List AgentExecution) (ts : List Task) (c : List String) (s : Nat),
      es.map projE = ts.map projT →
      calcAuxO fuel es c s = calcAuxT fuel ts c s := by
  induction fuel with
  | zero =>
    intro es ts c s h
    match es, ts with
    | [], [] => simp [calcAuxO, calcAuxT]
    | [], t :: ts => simp at h
    | e :: es, [] => simp at h
    | e :: es, t :: ts => simp [calcAuxO, calcAuxT]
  | succ fuel ih =>
    intro es ts c s h
    match es, ts with
    | [], [] => simp [calcAuxO, calcAuxT]
    | [], t :: ts => simp at h
    | e :: erest, [] => simp at h
    | e :: erest, t :: trest =>
      obtain ⟨h1, h2, h3⟩ := scanPass_sim (e :: erest) (t :: trest) c h
      have hh : projE e = projT t := by
        simp only [List.map_cons, List.cons.injEq] at h
        exact h.1
      have htail : erest.map projE = trest.map projT := by
        simp only [List.map_cons, List.cons.injEq] at h
        exact h.2
      have hid : e.id = t.id := congrArg Prod.fst hh
      simp only [calcAuxO, calcAuxT]
      by_cases hc : (scanPassT (t :: trest) c).1 = []
      · rw [if_pos (h1 ▸ hc), if_pos hc, hid, ih erest trest (t.id :: c) (s + 1) htail]
      · rw [if_neg (h1 ▸ hc), if_neg hc, h1, h3,
          ih (scanPassO (e :: erest) c).2.1 (scanPassT (t :: trest) c).2.1
            (scanPassT (t :: trest) c).2.2 (s + 1) h2]

/-- JSON-like values, as stored in the `todos.json` task records. -/
inductive JValue where
  | null
  | bool (b : Bool)
  | num (n : Int)
  | str (s : String)
  | arr (items : List JValue)
  | obj (fields : List (String × JValue))

/-- A task record loaded by `load_todos`: a JSON object, modelled as an
insertion-ordered Python dict (association list with unique keys as produced
by `json.load`). -/
def TaskRecord : Type := List (String × JValue)

/-- Python `d.get(k)` / `d[k]` read. -/
def dictGet (k : String) : List (String × JValue) → Option JValue
  | [] => none
  | p :: rest => if p.1 = k then some p.2 else dictGet k rest

/-- Python `k in d`. -/
def containsKey (m : List (String × JValue)) (k : String) : Bool :=
  m.any (fun p => p.1 == k)

/-- Python `d[k] = v`: update an existing key in place (keeping its position),
or append a new key at the end. -/
def dictSet (m : List (String × JValue)) (k : String) (v : JValue) :
    List (String × JValue) :=
  if containsKey m k then
    m.map (fun p => if p.1 = k then (k, v) else p)
  else m ++ [(k, v)]

/-- The log-entry dict appended by `update_task_status`
(todo-management.py lines 155-158). -/
def logEntryRec (now entry : String) : JValue :=
  .obj [("timestamp", .str now), ("entry", .str entry)]

/-- `task.get("id") == task_id`: true exactly when the record's `id` field is
the string `task_id` (a missing field gives `None`, a non-string value is
never equal to a Python string). -/
def idMatches (task_id : String) (t : List (String × JValue)) : Bool :=
  match dictGet "id" t with
  | some (.str s) => s == task_id
  | _ => false

/-- The body of the matched branch of `update_task_status`
(todo-management.py lines 150-158): set `status`, set `updated_at`, and for a
truthy (non-empty) `log_entry` ensure `log` exists and append one entry.
`none` models the `AttributeError` Python would raise if a pre-existing `log`
value is not a list. -/
def applyUpdate (now status log_entry : String) (t : List (String × JValue)) :
    Option (List (String × JValue)) :=
  let t1 := dictSet t "status" (.str status)
  let t2 := dictSet t1 "updated_at" (.str now)
  if log_entry = "" then some t2
  else
    let t3 := if containsKey t2 "log" then t2 else dictSet t2 "log" (.arr [])
    match dictGet "log" t3 with
    | some (.arr l) => some (dictSet t3 "log" (.arr (l ++ [logEntryRec now log_entry])))
    | _ => none

/-- `TodoManager.update_task_status` (todo-management.py lines 145-160) viewed
as the transformation it applies to the loaded todo list; the surrounding
`load_todos`/`save_todos` file IO is out of scope.  The `for ... break` loop
updates only the first record whose id matches. -/
def update_task_status (now task_id status log_entry : String) :
    List (List (String × JValue)) → Option (List (List (String × JValue)))
  | [] => some []
  | t :: rest =>
    if idMatches task_id t then
      (applyUpdate now status log_entry t).map (fun t2 => t2 :: rest)
    else
      (update_task_status now task_id status log_entry rest).map (fun r => t :: r)

/-- Key membership agrees with a defined read. -/
theorem containsKey_eq_isSome (m : List (String × JValue)) (k : String) :
    containsKey m k = (dictGet k m).isSome := by
  induction m with
  | nil => simp [containsKey, dictGet]
  | cons p rest ih =>
    by_cases hp : p.1 = k
    · simp [containsKey, dictGet, hp]
    · have hb : (p.1 == k) = false := beq_false_of_ne hp
      simp only [containsKey, List.any_cons, hb, Bool.false_or, dictGet, if_neg hp]
      exact ih

/-- In-place replacement of an existing key: reading that key afterwards gives
the new value. -/
theorem dictGet_map_replace_self (m : List (String × JValue)) (k : String)
    (v : JValue) (h : containsKey m k = true) :
    dictGet k (m.map fun p => if p.1 = k then (k, v) else p) = some v := by
  induction m with
  | nil => simp [containsKey] at h
  | cons p rest ih =>
    by_cases hp : p.1 = k
    · simp [dictGet, hp]
    · have hb : (p.1 == k) = false := beq_false_of_ne hp
      have h2 : containsKey rest k = true := by
        simpa [containsKey, hb] using h
      simp only [List.map_cons, if_neg hp, dictGet]
      exact ih h2

/-- In-place replacement of one key: reading any other key is unchanged. -/
theorem dictGet_map_replace_ne (m : List (String × JValue)) (k k2 : String)
    (v : JValue) (h : k ≠ k2) :
    dictGet k (m.map fun p => if p.1 = k2 then (k2, v) else p) = dictGet k m := by
  induction m with
  | nil => rfl
  | cons p rest ih =>
    simp only [List.map_cons]
    by_cases hp : p.1 = k2
    · rw [if_pos hp]
      simp only [dictGet]
      rw [if_neg (show ¬((k2, v).1 = k) from fun hk => h hk.symm)]
      rw [if_neg (show ¬(p.1 = k) from by rw [hp]; exact fun hk => h hk.symm)]
      exact ih
    · rw [if_neg hp]
      simp only [dictGet]
      by_cases hpk : p.1 = k
      · rw [if_pos hpk, if_pos hpk]
      · rw [if_neg hpk, if_neg hpk]
        exact ih

/-- Appending a fresh key at the end: reading any other key is unchanged. -/
theorem dictGet_append_single_ne (m : List (String × JValue)) (k k2 : String)
    (v : JValue) (h : k ≠ k2) :
    dictGet k (m ++ [(k2, v)]) = dictGet k m := by
  induction m with
  | nil =>
    simp only [List.nil_append, dictGet]
    rw [if_neg (show ¬((k2, v).1 = k) from fun hk => h hk.symm)]
  | cons p rest ih =>
    simp only [List.cons_append, dictGet]
    by_cases hpk : p.1 = k
    · rw [if_pos hpk, if_pos hpk]
    · rw [if_neg hpk, if_neg hpk]
      exact ih

/-- Reading a just-written key yields the written value. -/
theorem dictGet_dictSet_self (m : List (String × JValue)) (k : String) (v : JValue) :
    dictGet k (dictSet m k v) = some v := by
  unfold dictSet
  by_cases hc : containsKey m k = true
  · rw [if_pos hc]
    exact dictGet_map_replace_self m k v hc
  · rw [if_neg hc]
    have hnone : dictGet k m = none := by
      rw [containsKey_eq_isSome] at hc
      cases h2 : dictGet k m with
      | none => rfl
      | some w => rw [h2] at hc; simp at hc
    induction m with
    | nil => simp [dictGet]
    | cons p rest ih =>
      simp only [dictGet] at hnone
      by_cases hpk : p.1 = k
      · rw [if_pos hpk] at hnone
        exact absurd hnone (by simp)
      · rw [if_neg hpk] at hnone
        simp only [List.cons_append, dictGet, if_neg hpk]
        exact ih (by simp [containsKey_eq_isSome, hnone]) hnone

/-- Writing one key leaves every other key unchanged. -/
theorem dictGet_dictSet_ne (m : List (String × JValue)) (k k2 : String) (v : JValue)
    (h : k ≠ k2) : dictGet k (dictSet m k2 v) = dictGet k m := by
  unfold dictSet
  by_cases hc : containsKey m k2 = true
  · rw [if_pos hc]
    exact dictGet_map_replace_ne m k k2 v h
  · rw [if_neg hc]
    exact dictGet_append_single_ne m k k2 v h

/-- What `update_task_status` does to the matched record: `status` and
`updated_at` are set, for a non-empty `log_entry` exactly one entry is
appended to its `log` (created as `[]` when absent), and every other field is
unchanged. -/
def RecordFrame (now status log_entry : String)
    (t t2 : List (String × JValue)) : Prop :=
  dictGet "status" t2 = some (.str status) ∧
  dictGet "updated_at" t2 = some (.str now) ∧
  (∀ k, k ≠ "status" → k ≠ "updated_at" → k ≠ "log" → dictGet k t2 = dictGet k t) ∧
  (log_entry = "" → dictGet "log" t2 = dictGet "log" t) ∧
  (log_entry ≠ "" → ∃ old,
    (dictGet "log" t = some (.arr old) ∨ (dictGet "log" t = none ∧ old = [])) ∧
    dictGet "log" t2 = some (.arr (old ++ [logEntryRec now log_entry])))

/-- What `update_task_status` does to the whole loaded list: either no record
matches and the list is unchanged, or the first matching record is rewritten
per `RecordFrame` and every record before and after it is untouched. -/
def UpdateFrame (now task_id status log_entry : String)
    (todos out : List (List (String × JValue))) : Prop :=
  ((∀ t ∈ todos, idMatches task_id t = false) ∧ out = todos) ∨
  (∃ pre t t2 post, todos = pre ++ t :: post ∧ out = pre ++ t2 :: post ∧
    (∀ p ∈ pre, idMatches task_id p = false) ∧ idMatches task_id t = true ∧
    RecordFrame now status log_entry t t2)

/-- The matched-branch body satisfies the record-level frame property. -/
theorem applyUpdate_frame (now status log_entry : String)
    (t t2 : List (String × JValue))
    (h : applyUpdate now status log_entry t = some t2) :
    RecordFrame now status log_entry t t2 := by
  have hsu : ("status" : String) ≠ "updated_at" := by decide
  have hsl : ("status" : String) ≠ "log" := by decide
  have hul : ("updated_at" : String) ≠ "log" := by decide
  simp only [applyUpdate] at h
  set tS := dictSet t "status" (.str status) with htS
  set tU := dictSet tS "updated_at" (.str now) with htU
  have hS : dictGet "status" tU = some (.str status) := by
    rw [htU, dictGet_dictSet_ne _ _ _ _ hsu, htS, dictGet_dictSet_self]
  have hU : dictGet "updated_at" tU = some (.str now) := by
    rw [htU, dictGet_dictSet_self]
  have hF : ∀ k, k ≠ "status" → k ≠ "updated_at" → dictGet k tU = dictGet k t := by
    intro k h1 h2
    rw [htU, dictGet_dictSet_ne _ _ _ _ h2, htS, dictGet_dictSet_ne _ _ _ _ h1]
  have hL : dictGet "log" tU = dictGet "log" t :=
    hF "log" (fun hk => hsl hk.symm) (fun hk => hul hk.symm)
  by_cases hle : log_entry = ""
  · rw [if_pos hle, Option.some.injEq] at h
    subst h
    exact ⟨hS, hU, fun k h1 h2 _ => hF k h1 h2, fun _ => hL,
      fun hne => absurd hle hne⟩
  · rw [if_neg hle] at h
    by_cases hck : containsKey tU "log" = true
    · rw [if_pos hck] at h
      cases hlog : dictGet "log" tU with
      | none =>
        rw [containsKey_eq_isSome, hlog] at hck
        simp at hck
      | some w =>
        rw [hlog] at h
        cases w with
        | arr l =>
          simp only [Option.some.injEq] at h
          subst h
          refine ⟨?_, ?_, ?_, fun heq => absurd heq hle, fun _ => ⟨l, ?_, ?_⟩⟩
          · rw [dictGet_dictSet_ne _ _ _ _ hsl]
            exact hS
          · rw [dictGet_dictSet_ne _ _ _ _ hul]
            exact hU
          · intro k h1 h2 h3
            rw [dictGet_dictSet_ne _ _ _ _ h3]
            exact hF k h1 h2
          · exact Or.inl (hL.symm.trans hlog)
          · exact dictGet_dictSet_self _ _ _
        | null => simp at h
        | bool b => simp at h
        | num n => simp at h
        | str s => simp at h
        | obj fs => simp at h
    · rw [if_neg hck] at h
      rw [dictGet_dictSet_self] at h
      simp only [Option.some.injEq] at h
      subst h
      have hlognone : dictGet "log" t = none := by
        rw [← hL]
        rw [containsKey_eq_isSome] at hck
        cases hq : dictGet "log" tU with
        | none => rfl
        | some w => rw [hq] at hck; simp at hck
      refine ⟨?_, ?_, ?_, fun heq => absurd heq hle,
        fun _ => ⟨[], Or.inr ⟨hlognone, rfl⟩, ?_⟩⟩
      · rw [dictGet_dictSet_ne _ _ _ _ hsl, dictGet_dictSet_ne _ _ _ _ hsl]
        exact hS
      · rw [dictGet_dictSet_ne _ _ _ _ hul, dictGet_dictSet_ne _ _ _ _ hul]
        exact hU
      · intro k h1 h2 h3
        rw [dictGet_dictSet_ne _ _ _ _ h3, dictGet_dictSet_ne _ _ _ _ h3]
        exact hF k h1 h2
      · exact dictGet_dictSet_self _ _ _

/-- C10: `update_task_status`, viewed as a transformation of the loaded task
list, modifies at most the first record whose id equals `task_id` — setting
`status` and `updated_at` and, for a non-empty `log_entry`, appending exactly
one entry to its `log` — leaving every other record and every other field of
the matched record unchanged; when no record matches, the list is returned
unmodified. -/
theorem C10_update_task_status_frame (now task_id status log_entry : String)
    (todos : List (List (String × JValue))) :
    (∀ out, update_task_status now task_id status log_entry todos = some out →
      UpdateFrame now task_id status log_entry todos out) ∧
    ((∀ t ∈ todos, idMatches task_id t = false) →
      update_task_status now task_id status log_entry todos = some todos) := by
  induction todos with
  | nil =>
    constructor
    · intro out h
      simp only [update_task_status, Option.some.injEq] at h
      subst h
      exact Or.inl ⟨by simp, rfl⟩
    · intro _
      rfl
  | cons t rest ih =>
    constructor
    · intro out h
      simp only [update_task_status] at h
      by_cases hm : idMatches task_id t = true
      · rw [if_pos hm, Option.map_eq_some'] at h
        obtain ⟨t2, ht2, rfl⟩ := h
        exact Or.inr ⟨[], t, t2, rest, by simp, by simp, by simp, hm,
          applyUpdate_frame _ _ _ _ _ ht2⟩
      · rw [if_neg hm, Option.map_eq_some'] at h
        obtain ⟨r, hr, rfl⟩ := h
        rcases ih.1 r hr with ⟨hall, rfl⟩ |
          ⟨pre, t1, t2, post, rfl, rfl, hpre, hm2, hrf⟩
        · refine Or.inl ⟨?_, rfl⟩
          intro x hx
          rcases List.mem_cons.mp hx with rfl | hx2
          · simpa using hm
          · exact hall x hx2
        · refine Or.inr ⟨t :: pre, t1, t2, post, by simp, by simp, ?_, hm2, hrf⟩
          intro p hp
          rcases List.mem_cons.mp hp with rfl | hp2
          · simpa using hm
          · exact hpre p hp2
    · intro hall
      have hm : idMatches task_id t = false := hall t (by simp)
      simp only [update_task_status]
      rw [if_neg (by simp [hm]), ih.2 (fun x hx => hall x (List.mem_cons_of_mem t hx))]
      rfl

/-- When no item has dependencies, a single scan pass places every item, in
input order. -/
theorem scanPassO_all_no_deps (l : List AgentExecution) :
    ∀ c : List String, (∀ e ∈ l, e.dependencies = []) →
      (scanPassO l c).1 = l.map (fun e => e.id) ∧ (scanPassO l c).2.1 = [] := by
  induction l with
  | nil =>
    intro c _
    simp [scanPassO]
  | cons e rest ih =>
    intro c h
    have hd : e.dependencies = [] := h e (by simp)
    simp only [scanPassO, hd]
    rw [if_pos (by simp)]
    obtain ⟨h1, h2⟩ := ih (e.id :: c) (fun x hx => h x (List.mem_cons_of_mem e hx))
    exact ⟨by simp [h1], h2⟩

/-- C1 (refuting evaluation): on the acyclic input `[a (no deps), b (deps
[a])]` the partitioner places both items in `stage_0`, so `b` is assigned a
stage index equal to — not strictly greater than — that of its dependency
`a`.  The scan adds each placed item to the completed set during the pass, so
`b` already sees `a` as completed within the same pass. -/
theorem C1_dependent_in_same_stage_eval :
    calculate_parallel_groups [mkExec "a" [], mkExec "b" ["a"]] =
      [("stage_0", ["a", "b"])] := by
  rfl

/-- C2 (refuting evaluation): on the specification's four-item scenario
`a, b(a), c(a), d(b,c)` both copies of the partitioner produce a single stage
containing all four ids, not the three stages `[a], [b,c], [d]` the
specification states. -/
theorem C2_scenario_single_stage_eval :
    calculate_parallel_groups
      [mkExec "a" [], mkExec "b" ["a"], mkExec "c" ["a"], mkExec "d" ["b", "c"]] =
      [("stage_0", ["a", "b", "c", "d"])] ∧
    identify_parallel_opportunities
      [mkTask "a" [], mkTask "b" ["a"], mkTask "c" ["a"], mkTask "d" ["b", "c"]] =
      [("stage_0", ["a", "b", "c", "d"])] := by
  exact ⟨rfl, rfl⟩

/-- C3: for every input with pairwise-distinct ids, the ids in the produced
stages are a permutation of the input ids (so each input id appears in the
stages exactly once — no duplicates, no omissions). -/
theorem C3_each_id_exactly_once (execs : List AgentExecution)
    (h : (execs.map (fun e => e.id)).Nodup) :
    (((calculate_parallel_groups execs).map Prod.snd).flatten).Perm
      (execs.map (fun e => e.id)) ∧
    (((calculate_parallel_groups execs).map Prod.snd).flatten).Nodup := by
  unfold calculate_parallel_groups
  rw [pyDictO_eq_self execs h]
  obtain ⟨g, hg⟩ := Option.isSome_iff_exists.mp
    (calcAuxO_isSome execs.length execs [] 0 le_rfl)
  rw [hg]
  simp only [Option.getD_some]
  have hperm := calcAuxO_perm execs.length execs [] 0 g le_rfl hg
  exact ⟨hperm, hperm.nodup_iff.mpr h⟩

/-- C4: for every input with pairwise-distinct ids, the partitioner's loop
terminates (fuel equal to the item count never runs out) and produces at most
as many stages as there are input items. -/
theorem C4_terminates_stage_bound (execs : List AgentExecution)
    (h : (execs.map (fun e => e.id)).Nodup) :
    (calcAuxO (pyDictO execs).length (pyDictO execs) [] 0).isSome = true ∧
    (calculate_parallel_groups execs).length ≤ execs.length := by
  refine ⟨calcAuxO_isSome _ _ _ _ le_rfl, ?_⟩
  unfold calculate_parallel_groups
  rw [pyDictO_eq_self execs h]
  obtain ⟨g, hg⟩ := Option.isSome_iff_exists.mp
    (calcAuxO_isSome execs.length execs [] 0 le_rfl)
  rw [hg]
  simpa using calcAuxO_length_le execs.length execs [] 0 g le_rfl hg

/-- C5: on the two-item cycle `A depends on B, B depends on A` both copies of
the partitioner terminate without error and produce exactly two singleton
stages. -/
theorem C5_two_cycle_two_singleton_stages :
    calculate_parallel_groups [mkExec "A" ["B"], mkExec "B" ["A"]] =
      [("stage_0", ["A"]), ("stage_1", ["B"])] ∧
    identify_parallel_opportunities [mkTask "A" ["B"], mkTask "B" ["A"]] =
      [("stage_0", ["A"]), ("stage_1", ["B"])] := by
  exact ⟨rfl, rfl⟩

/-- C6: the two copies of the partitioner — `_calculate_parallel_groups` in
orchestrator.py and `identify_parallel_opportunities` in todo-management.py —
produce the same stage mapping on any two inputs with the same ids and
dependency lists in the same order. -/
theorem C6_copies_equivalent (es : List AgentExecution) (ts : List Task)
    (h : es.map (fun e => (e.id, e.dependencies)) =
      ts.map (fun t => (t.id, t.dependencies))) :
    calculate_parallel_groups es = identify_parallel_opportunities ts := by
  have hd : (pyDictO es).map projE = (pyDictT ts).map projT :=
    pyDict_sim es ts [] [] h rfl
  have hlen : (pyDictO es).length = (pyDictT ts).length := by
    have h2 := congrArg List.length hd
    simpa using h2
  unfold calculate_parallel_groups identify_parallel_opportunities
  rw [hlen, calcAux_sim (pyDictT ts).length (pyDictO es) (pyDictT ts) [] 0 hd]

/-- C7: the partitioner raises no error on any input (its loop always
completes within `|items|` iterations), and whenever a full scan of the
remaining items places none of them, the next stage consists of exactly the
first-encountered remaining item in insertion order, alone, regardless of its
declared dependencies (a failed scan leaves `remaining` and `completed`
unchanged, see `scanPassO_empty_stage`). -/
theorem C7_no_error_forced_singleton :
    (∀ execs : List AgentExecution,
      (calcAuxO (pyDictO execs).length (pyDictO execs) [] 0).isSome = true) ∧
    (∀ (fuel : Nat) (first : AgentExecution) (rest : List AgentExecution)
        (completed : List String) (stage : Nat),
      (scanPassO (first :: rest) completed).1 = [] →
      calcAuxO (fuel + 1) (first :: rest) completed stage =
        (calcAuxO fuel rest (first.id :: completed) (stage + 1)).map
          (fun g => ("stage_" ++ toString stage, [first.id]) :: g)) := by
  refine ⟨fun execs => calcAuxO_isSome _ _ _ _ le_rfl, ?_⟩
  intro fuel first rest completed stage h
  simp only [calcAuxO]
  rw [if_pos h]

/-- C8: the partitioner is a deterministic function of its input — equal
input sequences give equal stage mappings.  (Freedom from mutation of the
input items is captured by the embedding itself: `calculate_parallel_groups`
is a pure function that only reads `id` and `dependencies`.) -/
theorem C8_deterministic (xs ys : List AgentExecution) (h : xs = ys) :
    calculate_parallel_groups xs = calculate_parallel_groups ys := by
  rw [h]

/-- C9 (counterexample): on the empty input — which has pairwise-distinct ids
and only empty dependency lists — the partitioner produces zero stages, not
exactly one stage. -/
theorem C9_empty_input_zero_stages :
    calculate_parallel_groups ([] : List AgentExecution) = [] ∧
    (calculate_parallel_groups ([] : List AgentExecution)).length ≠ 1 := by
  exact ⟨rfl, by decide⟩

/-- C9 (amended): for every *non-empty* input with pairwise-distinct ids in
which every dependency list is empty, the partitioner produces exactly one
stage containing all input ids in order. -/
theorem C9_no_deps_single_stage (execs : List AgentExecution)
    (hne : execs ≠ [])
    (hnd : (execs.map (fun e => e.id)).Nodup)
    (hdeps : ∀ e ∈ execs, e.dependencies = []) :
    calculate_parallel_groups execs =
      [("stage_0", execs.map (fun e => e.id))] := by
  unfold calculate_parallel_groups
  rw [pyDictO_eq_self execs hnd]
  match execs, hne with
  | first :: rest, _ =>
    obtain ⟨h1, h2⟩ := scanPassO_all_no_deps (first :: rest) []
      (fun e he => hdeps e he)
    simp only [List.length_cons, calcAuxO]
    rw [if_neg (by rw [h1]; simp), h2]
    simp only [calcAuxO, Option.map_some', Option.getD_some, h1]
    rfl

/-- Witness for C3 at the concrete one-item input. -/
theorem C3_witness :
    (([mkExec "w3" []].map (fun e => e.id)).Nodup) ∧
    ((((calculate_parallel_groups [mkExec "w3" []]).map Prod.snd).flatten).Perm
      ([mkExec "w3" []].map (fun e => e.id)) ∧
     (((calculate_parallel_groups [mkExec "w3" []]).map Prod.snd).flatten).Nodup) :=
  ⟨by decide, C3_each_id_exactly_once [mkExec "w3" []] (by decide)⟩

/-- Witness for C4 at the concrete one-item input. -/
theorem C4_witness :
    (([mkExec "w4" []].map (fun e => e.id)).Nodup) ∧
    ((calcAuxO (pyDictO [mkExec "w4" []]).length (pyDictO [mkExec "w4" []]) [] 0).isSome = true ∧
     (calculate_parallel_groups [mkExec "w4" []]).length ≤ [mkExec "w4" []].length) :=
  ⟨by decide, C4_terminates_stage_bound [mkExec "w4" []] (by decide)⟩

/-- Witness for C6 at a concrete corresponding input pair. -/
theorem C6_witness :
    ([mkExec "w6" []].map (fun e => (e.id, e.dependencies)) =
      [mkTask "w6" []].map (fun t => (t.id, t.dependencies))) ∧
    calculate_parallel_groups [mkExec "w6" []] =
      identify_parallel_opportunities [mkTask "w6" []] :=
  ⟨rfl, C6_copies_equivalent [mkExec "w6" []] [mkTask "w6" []] rfl⟩

/-- Witness for C7 at the concrete two-item cycle, where the first scan
places nothing. -/
theorem C7_witness :
    (scanPassO [mkExec "A" ["B"], mkExec "B" ["A"]] []).1 = [] ∧
    calcAuxO 2 [mkExec "A" ["B"], mkExec "B" ["A"]] [] 0 =
      (calcAuxO 1 [mkExec "B" ["A"]] ((mkExec "A" ["B"]).id :: []) (0 + 1)).map
        (fun g => ("stage_" ++ toString 0, [(mkExec "A" ["B"]).id]) :: g) :=
  ⟨rfl, C7_no_error_forced_singleton.2 1 (mkExec "A" ["B"]) [mkExec "B" ["A"]] [] 0 rfl⟩

/-- Witness for C8 at a concrete input. -/
theorem C8_witness :
    ([mkExec "w8" []] = [mkExec "w8" []]) ∧
    calculate_parallel_groups [mkExec "w8" []] =
      calculate_parallel_groups [mkExec "w8" []] :=
  ⟨rfl, C8_deterministic [mkExec "w8" []] [mkExec "w8" []] rfl⟩

/-- Witness for the amended C9 at a concrete two-item dependency-free
input. -/
theorem C9_witness :
    ([mkExec "w9a" [], mkExec "w9b" []] ≠ [] ∧
     (([mkExec "w9a" [], mkExec "w9b" []].map (fun e => e.id)).Nodup) ∧
     (∀ e ∈ [mkExec "w9a" [], mkExec "w9b" []], e.dependencies = [])) ∧
    calculate_parallel_groups [mkExec "w9a" [], mkExec "w9b" []] =
      [("stage_0", [mkExec "w9a" [], mkExec "w9b" []].map (fun e => e.id))] :=
  ⟨⟨List.cons_ne_nil _ _, by decide, by decide⟩,
    C9_no_deps_single_stage [mkExec "w9a" [], mkExec "w9b" []]
      (List.cons_ne_nil _ _) (by decide) (by decide)⟩

/-- Witness for C10 at a concrete one-record list whose record matches. -/
theorem C10_witness :
    update_task_status "T" "t1" "done" "note"
      [[("id", JValue.str "t1"), ("status", JValue.str "pending")]] =
      some [[("id", JValue.str "t1"), ("status", JValue.str "done"),
             ("updated_at", JValue.str "T"),
             ("log", JValue.arr [JValue.obj
               [("timestamp", JValue.str "T"), ("entry", JValue.str "note")]])]] ∧
    UpdateFrame "T" "t1" "done" "note"
      [[("id", JValue.str "t1"), ("status", JValue.str "pending")]]
      [[("id", JValue.str "t1"), ("status", JValue.str "done"),
        ("updated_at", JValue.str "T"),
        ("log", JValue.arr [JValue.obj
          [("timestamp", JValue.str "T"), ("entry", JValue.str "note")]])]] :=
  ⟨rfl,
    (C10_update_task_status_frame "T" "t1" "done" "note"
      [[("id", JValue.str "t1"), ("status", JValue.str "pending")]]).1 _ rfl⟩

end CCTemplate
